import Mathlib

/-! Shallow embedding of `ppsci/constraint/boundary_constraint.py`: the
`BoundaryConstraint.__init__` and `SupervisedConstraint.__init__` constructors,
with numpy arrays modelled as lists of rationals and Python dicts as
insertion-ordered association lists. -/

set_option autoImplicit false

abbrev Arr := List ℚ

abbrev FieldMapping := List (String × Arr)

def keysOf (m : FieldMapping) : List String := m.map Prod.fst

def findArr (m : FieldMapping) (k : String) : Option Arr :=
  (m.find? (fun p => p.1 == k)).map Prod.snd

def getArr (m : FieldMapping) (k : String) : Arr := (findArr m k).getD []

/-- Model of Python's `next(iter(d.values()))`: the first value of an
insertion-ordered dict (default `[]` stands in for the `StopIteration` case). -/
def firstArr (m : FieldMapping) : Arr := ((m.head?).map Prod.snd).getD []

def sampleCount (m : FieldMapping) : ℕ := (firstArr m).length

/-- Model of `np.full_like(ref, c)`: an array of the same length as `ref`,
every entry equal to `c`. -/
def fullLike (ref : Arr) (c : ℚ) : Arr := List.replicate ref.length c

/-- Model of `np.ones_like(ref)`. -/
def onesLike (ref : Arr) : Arr := fullLike ref 1

/-- Expression trees produced by the symbolic-algebra collaborator:
arithmetic over named variables plus the element-wise maximum operator
(`amax`) that the constructors install in the compiled evaluator. -/
inductive SymExpr : Type
  | const (c : ℚ)
  | var (n : String)
  | add (a b : SymExpr)
  | sub (a b : SymExpr)
  | mul (a b : SymExpr)
  | amax (a b : SymExpr)
  deriving DecidableEq

def SymExpr.evalAt (env : String → ℚ) : SymExpr → ℚ
  | .const c => c
  | .var n => env n
  | .add a b => a.evalAt env + b.evalAt env
  | .sub a b => a.evalAt env - b.evalAt env
  | .mul a b => a.evalAt env * b.evalAt env
  | .amax a b => max (a.evalAt env) (b.evalAt env)

/-- Modelled from the spec: `sympy.lambdify` (external symbolic-algebra call,
lines 91-95 and 118-122 of the source) compiles an expression over the declared
variable symbols into a numeric function that is evaluated element-wise, via
numpy broadcasting, on the arrays bound to those symbols; the extra module
entry maps `amax` to the element-wise maximum of its two arguments. -/
def evalSym (dims : List String) (input : FieldMapping) (e : SymExpr) : Arr :=
  (List.range (sampleCount input)).map (fun i =>
    e.evalAt (fun n => if n ∈ dims then (getArr input n).getD i 0 else 0))

/-- Modelled from the spec: `sympy.parsing.sympy_parser.parse_expr` is an
external symbolic-algebra call turning a source string into an expression tree
over the named variables; only the fact that the result is a parsed tree
(a `sympy.Basic`, not a `str`) is used in this development. -/
def parse_expr (s : String) : SymExpr := SymExpr.var s

/-- Tagged union of the runtime kinds a label/weight value spec can have in the
Python source: `int`/`float` constants, `str` sources, parsed `sympy.Basic`
trees, `types.FunctionType` callables (returning a scalar or an array), and
any other Python object, recorded by the name of its type. -/
inductive ValueSpec : Type
  | num (c : ℚ)
  | str (s : String)
  | expr (e : SymExpr)
  | func (f : FieldMapping → ℚ ⊕ Arr)
  | other (typeName : String)

def ValueSpec.typeName : ValueSpec → String
  | .num _ => "float"
  | .str _ => "str"
  | .expr _ => "sympy.Basic"
  | .func _ => "function"
  | .other t => t

instance exceptDecEq {ε α : Type} [DecidableEq ε] [DecidableEq α] :
    DecidableEq (Except ε α) := fun x y =>
  match x, y with
  | .ok a, .ok b =>
    if h : a = b then isTrue (by rw [h]) else isFalse (by simp [h])
  | .error e, .error f =>
    if h : e = f then isTrue (by rw [h]) else isFalse (by simp [h])
  | .ok _, .error _ => isFalse (by simp)
  | .error _, .ok _ => isFalse (by simp)

inductive ConstraintError : Type
  | unsupportedValueType (typeName : String)
  | unsupportedFileFormat
  | missingTemporalInformation
  deriving DecidableEq

/-- Lines 87-107 of the source: resolve one `label_dict` value against the
sampled `input`. A constant is broadcast with `np.full_like` over the first
input array; a parsed expression is compiled and evaluated on the arrays of
the dimension keys; a callable is applied to `input`, its scalar results
broadcast; anything else (including a plain string) raises
`NotImplementedError(f"type of \x7btype(value)\x7d is invalid yet.")`. -/
def resolveLabelValue (dims : List String) (input : FieldMapping) :
    ValueSpec → Except ConstraintError Arr
  | .num c => .ok (fullLike (firstArr input) c)
  | .expr e => .ok (evalSym dims input e)
  | .func f =>
    match f input with
    | .inl c => .ok (fullLike (firstArr input) c)
    | .inr a => .ok a
  | .str _ => .error (.unsupportedValueType "str")
  | .other t => .error (.unsupportedValueType t)

/-- Lines 110-132 (and 210-232) of the source: resolve one `weight_dict`
value. Unlike the label branch, a string is first parsed with
`sp_parser.parse_expr`; a constant is broadcast over the first label array;
a callable's scalar result is broadcast over the first input array. -/
def resolveWeightValue (dims : List String) (input : FieldMapping) (labelRef : Arr) :
    ValueSpec → Except ConstraintError Arr
  | .str s => .ok (evalSym dims input (parse_expr s))
  | .num c => .ok (fullLike labelRef c)
  | .expr e => .ok (evalSym dims input e)
  | .func f =>
    match f input with
    | .inl c => .ok (fullLike (firstArr input) c)
    | .inr a => .ok a
  | .other t => .error (.unsupportedValueType t)

/-- Whether a label value spec falls into one of the branches that line 87-105
of the source handle without raising. -/
def recognizedLabel : ValueSpec → Bool
  | .num _ => true
  | .expr _ => true
  | .func _ => true
  | .str _ => false
  | .other _ => false

/-- The `for key, value in label_dict.items()` loop of lines 86-107: build the
label mapping entry by entry, raising at the first unsupported value. -/
def labelsOf (dims : List String) (input : FieldMapping) :
    List (String × ValueSpec) → Except ConstraintError FieldMapping
  | [] => .ok []
  | (k, v) :: rest =>
    match resolveLabelValue dims input v with
    | .error e => .error e
    | .ok a =>
      match labelsOf dims input rest with
      | .error e => .error e
      | .ok out => .ok ((k, a) :: out)

/-- Python dict assignment `d[k] = a`: overwrite the entry when the key is
present, append it otherwise. -/
def setKey (m : FieldMapping) (k : String) (a : Arr) : FieldMapping :=
  if k ∈ keysOf m then m.map (fun p => if p.1 = k then (k, a) else p)
  else m ++ [(k, a)]

/-- The `for key, value in weight_dict.items()` loop of lines 111-132
(and 211-232): override the default weights entry by entry, raising at the
first unsupported value. -/
def applyWeights (dims : List String) (input : FieldMapping) (labelRef : Arr)
    (w : FieldMapping) : List (String × ValueSpec) → Except ConstraintError FieldMapping
  | [] => .ok w
  | (k, v) :: rest =>
    match resolveWeightValue dims input labelRef v with
    | .error e => .error e
    | .ok a => applyWeights dims input labelRef (setKey w k a) rest

/-- Modelled from the spec: the external geometry collaborator exposes a
`dim_keys` list of coordinate field names, whether it is a `Mesh` (which
additionally yields an `area` field), and `sample_boundary`, which returns a
FieldMapping of sampled points (its `random`, `criteria` and `evenly`
arguments only influence which points are drawn and are left abstract). -/
structure Geometry : Type where
  dim_keys : List String
  isMesh : Bool
  sample_boundary : ℕ → FieldMapping

structure DataloaderCfg : Type where
  batch_size : ℕ
  iters_per_epoch : ℕ

/-- Line 84 of the source: `input["area"] *= dataloader_cfg["iters_per_epoch"]`
when an `area` field is present. -/
def scaleArea (iters : ℕ) (m : FieldMapping) : FieldMapping :=
  m.map (fun p => if p.1 = "area" then (p.1, p.2.map (fun q => q * (iters : ℚ))) else p)

/-- Lines 62-65 of the source: every string-valued entry of the caller's
`label_expr` dict is replaced, in the same dict object, by its parsed
expression tree. -/
def processLabelExpr (lex : List (String × (String ⊕ SymExpr))) :
    List (String × (String ⊕ SymExpr)) :=
  lex.map (fun p =>
    match p.2 with
    | .inl s => (p.1, Sum.inr (parse_expr s))
    | .inr _ => p)

/-- The fields a successfully constructed `BoundaryConstraint` ends up with
(the dataset packaging of line 133 instantiates an external dataset class from
exactly `input`, `label` and `weight` and is not re-modelled). `label_expr`
is the post-construction state of the caller's aliased dict. -/
structure BCResult : Type where
  label_expr : List (String × (String ⊕ SymExpr))
  input_keys : List String
  output_keys : List String
  input : FieldMapping
  label : FieldMapping
  weight : FieldMapping
  deriving DecidableEq

/-- Lines 49-134 of the source: `BoundaryConstraint.__init__`. -/
def BoundaryConstraint.init (label_expr : List (String × (String ⊕ SymExpr)))
    (label_dict : List (String × ValueSpec)) (geom : Geometry) (cfg : DataloaderCfg)
    (weight_dict : Option (List (String × ValueSpec))) :
    Except ConstraintError BCResult :=
  let lex := processLabelExpr label_expr
  let output_keys := label_dict.map Prod.fst ++ (if geom.isMesh then ["area"] else [])
  let input := scaleArea cfg.iters_per_epoch
    (geom.sample_boundary (cfg.batch_size * cfg.iters_per_epoch))
  match labelsOf geom.dim_keys input label_dict with
  | .error e => .error e
  | .ok label =>
    match applyWeights geom.dim_keys input (firstArr label)
        (label.map (fun p => (p.1, onesLike (firstArr label)))) (weight_dict.getD []) with
    | .error e => .error e
    | .ok weight =>
      .ok ⟨lex, geom.dim_keys, output_keys, input, label, weight⟩

/-- Lines 163-168 of the source: `alias_dict[key] if key in alias_dict else key`. -/
def aliasGet (alias_dict : List (String × String)) (k : String) : String :=
  match alias_dict.find? (fun p => p.1 == k) with
  | some p => p.2
  | none => k

/-- Modelled from the spec: `misc.convert_to_array` (ppsci/utils/misc, not under
src/) concatenates the arrays of the given keys column-wise into one matrix
with one row per sample. -/
def convert_to_array (data : FieldMapping) (keys : List String) : List (List ℚ) :=
  (List.range (sampleCount data)).map (fun i =>
    keys.map (fun k => (getArr data k).getD i 0))

/-- Column extraction helper for `convert_to_dict`: the key at position `j`
receives column `j` of the matrix. -/
def convertCols (rows : List (List ℚ)) (j : ℕ) : List String → FieldMapping
  | [] => []
  | k :: rest => (k, rows.map (fun row => row.getD j 0)) :: convertCols rows (j + 1) rest

/-- Modelled from the spec: `misc.convert_to_dict` (ppsci/utils/misc, not under
src/) splits a matrix back into one named column per key. -/
def convert_to_dict (rows : List (List ℚ)) (keys : List String) : FieldMapping :=
  convertCols rows 0 keys

/-- Modelled from the spec: `misc.combine_array_with_time` (ppsci/utils/misc,
not under src/) cross-products every existing row with every requested
timestamp, prepending the timestamp as a new first column. -/
def combine_array_with_time (rows : List (List ℚ)) (ts : List ℚ) : List (List ℚ) :=
  ts.flatMap (fun t => rows.map (fun row => t :: row))

/-- Model of `np.isclose(a, b)` with numpy's default tolerances
`atol = 1e-8`, `rtol = 1e-5`. -/
def isClose (a b : ℚ) : Bool := |a - b| ≤ 1 / 100000000 + 1 / 100000 * |b|

/-- Lines 177-179 of the source: `mask = np.zeros(len, "bool")` followed by
`mask |= np.isclose(raw_time_array, ti).flatten()` for each requested
timestamp. -/
def buildMask (tArr : Arr) (ts : List ℚ) : List Bool :=
  ts.foldl (fun m ti => (m.zip tArr).map (fun p => p.1 || isClose p.2 ti))
    (List.replicate tArr.length false)

/-- Line 183 of the source: `data = data[mask]`, row selection by a boolean
mask. -/
def filterByMask {α : Type} (rows : List α) (mask : List Bool) : List α :=
  ((rows.zip mask).filter (fun p => p.2)).map Prod.fst

/-- The fields a successfully constructed `SupervisedConstraint` ends up with
(as in `BCResult`, the external dataset class of line 233 is not re-modelled). -/
structure SCResult : Type where
  input_keys : List String
  output_keys : List String
  input : FieldMapping
  label : FieldMapping
  weight : FieldMapping
  num_timestamp : ℕ
  deriving DecidableEq

/-- Lines 196-233 of the source: split the combined data dict into `input` and
`label` by key, then default the weights to all-ones over the first label
array and apply the `weight_dict` overrides. -/
def mkSupervised (ikeys okeys : List String) (data : FieldMapping) (numT : ℕ)
    (weight_dict : Option (List (String × ValueSpec))) :
    Except ConstraintError SCResult :=
  let input := ikeys.map (fun k => (k, getArr data k))
  let label := okeys.map (fun k => (k, getArr data k))
  match applyWeights ikeys input (firstArr label)
      (label.map (fun p => (p.1, onesLike (firstArr label)))) (weight_dict.getD []) with
  | .error e => .error e
  | .ok weight => .ok ⟨ikeys, okeys, input, label, weight, numT⟩

/-- Lines 151-235 of the source: `SupervisedConstraint.__init__`. The content
the external `misc.load_csv_file` would return for `data_file` is passed in as
`fileData` (column renaming per `alias_dict` already applied, as that helper
does); it is only consulted when the file name ends in `.csv`, exactly as in
the source. -/
def SupervisedConstraint.init (data_file : String) (fileData : FieldMapping)
    (input_keys label_keys : List String) (alias_dict : List (String × String))
    (weight_dict : Option (List (String × ValueSpec))) (timestamps : Option (List ℚ)) :
    Except ConstraintError SCResult :=
  let ikeys := input_keys.map (aliasGet alias_dict)
  let okeys := label_keys.map (aliasGet alias_dict)
  if data_file.endsWith ".csv" then
    let data := fileData
    if "t" ∉ keysOf data ∧ timestamps = none then .error .missingTemporalInformation
    else
      match timestamps with
      | some ts =>
        if "t" ∈ keysOf data then
          let rawT := getArr data "t"
          let arr := filterByMask (convert_to_array data (ikeys ++ okeys)) (buildMask rawT ts)
          mkSupervised ikeys okeys (convert_to_dict arr (ikeys ++ okeys)) ts.length weight_dict
        else
          let arr := combine_array_with_time (convert_to_array data (ikeys ++ okeys)) ts
          mkSupervised ("t" :: ikeys) okeys (convert_to_dict arr (("t" :: ikeys) ++ okeys))
            ts.length weight_dict
      | none =>
        mkSupervised ikeys okeys data ((getArr data "t").dedup.length) weight_dict
  else .error .unsupportedFileFormat

theorem findArr_cons (k1 k : String) (a : Arr) (m : FieldMapping) :
    findArr ((k1, a) :: m) k = if k1 = k then some a else findArr m k := by
  by_cases h : k1 = k <;> simp [findArr, List.find?_cons, h]

theorem findArr_mem {m : FieldMapping} {k : String} (h : k ∈ keysOf m) :
    ∃ a, findArr m k = some a ∧ (k, a) ∈ m := by
  induction m with
  | nil => simp [keysOf] at h
  | cons p tl ih =>
    obtain ⟨k1, a1⟩ := p
    by_cases hk : k1 = k
    · subst hk
      exact ⟨a1, by simp [findArr_cons], List.mem_cons_self _ _⟩
    · have h2 : k ∈ keysOf tl := by
        simpa [keysOf, hk, Ne.symm hk] using h
      obtain ⟨a, ha, hm⟩ := ih h2
      exact ⟨a, by simp [findArr_cons, hk, ha], List.mem_cons_of_mem _ hm⟩

theorem labelsOf_ok_cases {dims : List String} {input : FieldMapping}
    {k : String} {v : ValueSpec} {tl : List (String × ValueSpec)} {out : FieldMapping}
    (h : labelsOf dims input ((k, v) :: tl) = .ok out) :
    ∃ a out2, resolveLabelValue dims input v = .ok a ∧
      labelsOf dims input tl = .ok out2 ∧ out = (k, a) :: out2 := by
  simp only [labelsOf] at h
  cases hr : resolveLabelValue dims input v with
  | error e => rw [hr] at h; simp at h
  | ok a =>
    rw [hr] at h
    cases ht : labelsOf dims input tl with
    | error e => rw [ht] at h; simp at h
    | ok out2 =>
      rw [ht] at h
      simp only [Except.ok.injEq] at h
      exact ⟨a, out2, rfl, rfl, h.symm⟩

theorem labelsOf_keys {dims : List String} {input : FieldMapping}
    {ld : List (String × ValueSpec)} {out : FieldMapping}
    (h : labelsOf dims input ld = .ok out) : keysOf out = ld.map Prod.fst := by
  induction ld generalizing out with
  | nil => simp only [labelsOf, Except.ok.injEq] at h; subst h; rfl
  | cons hd tl ih =>
    obtain ⟨k, v⟩ := hd
    obtain ⟨a, out2, _, ht, rfl⟩ := labelsOf_ok_cases h
    simp [keysOf, ih ht, keysOf] at *
    exact ih ht

theorem labelsOf_findArr {dims : List String} {input : FieldMapping}
    {ld : List (String × ValueSpec)} {out : FieldMapping} {k : String} {v : ValueSpec}
    (h : labelsOf dims input ld = .ok out)
    (hnd : (ld.map Prod.fst).Nodup) (hmem : (k, v) ∈ ld) :
    ∃ a, resolveLabelValue dims input v = .ok a ∧ findArr out k = some a := by
  induction ld generalizing out with
  | nil => simp at hmem
  | cons hd tl ih =>
    obtain ⟨k1, v1⟩ := hd
    obtain ⟨a, out2, hr, ht, rfl⟩ := labelsOf_ok_cases h
    rcases List.mem_cons.1 hmem with heq | hmem2
    · obtain ⟨rfl, rfl⟩ := Prod.mk.injEq .. ▸ heq
      exact ⟨a, hr, by simp [findArr_cons]⟩
    · have hne : k1 ≠ k := by
        intro hk
        subst hk
        exact (List.nodup_cons.1 hnd).1 (List.mem_map.2 ⟨(k1, v), hmem2, rfl⟩)
      obtain ⟨a2, hra, hfa⟩ := ih ht (List.nodup_cons.1 hnd).2 hmem2
      exact ⟨a2, hra, by simp [findArr_cons, hne, hfa]⟩

theorem labelsOf_mem {dims : List String} {input : FieldMapping}
    {ld : List (String × ValueSpec)} {out : FieldMapping} {k : String} {a : Arr}
    (h : labelsOf dims input ld = .ok out) (hmem : (k, a) ∈ out) :
    ∃ v, (k, v) ∈ ld ∧ resolveLabelValue dims input v = .ok a := by
  induction ld generalizing out with
  | nil => simp only [labelsOf, Except.ok.injEq] at h; subst h; simp at hmem
  | cons hd tl ih =>
    obtain ⟨k1, v1⟩ := hd
    obtain ⟨a1, out2, hr, ht, rfl⟩ := labelsOf_ok_cases h
    rcases List.mem_cons.1 hmem with heq | hmem2
    · obtain ⟨rfl, rfl⟩ := Prod.mk.injEq .. ▸ heq
      exact ⟨v1, List.mem_cons_self _ _, hr⟩
    · obtain ⟨v, hv, hva⟩ := ih ht hmem2
      exact ⟨v, List.mem_cons_of_mem _ hv, hva⟩

theorem resolveWeightValue_error {dims : List String} {input : FieldMapping}
    {ref : Arr} {v : ValueSpec} {e : ConstraintError}
    (h : resolveWeightValue dims input ref v = .error e) :
    ∃ t, e = .unsupportedValueType t := by
  cases v with
  | func f => cases hf : f input <;> simp [resolveWeightValue, hf] at h
  | other t => simp [resolveWeightValue] at h; exact ⟨t, h.symm⟩
  | _ => simp [resolveWeightValue] at h

theorem applyWeights_error {dims : List String} {input : FieldMapping} {ref : Arr}
    {w : FieldMapping} {wd : List (String × ValueSpec)} {e : ConstraintError}
    (h : applyWeights dims input ref w wd = .error e) :
    ∃ t, e = .unsupportedValueType t := by
  induction wd generalizing w with
  | nil => simp [applyWeights] at h
  | cons hd tl ih =>
    obtain ⟨k1, v1⟩ := hd
    simp only [applyWeights] at h
    cases hr : resolveWeightValue dims input ref v1 with
    | error e1 =>
      rw [hr] at h
      simp only [Except.error.injEq] at h
      subst h
      exact resolveWeightValue_error hr
    | ok a => rw [hr] at h; exact ih h

theorem findArr_map_set {m : FieldMapping} {k1 k : String} {a : Arr} (h : k1 ≠ k) :
    findArr (m.map (fun p => if p.1 = k1 then (k1, a) else p)) k = findArr m k := by
  induction m with
  | nil => rfl
  | cons p tl ih =>
    obtain ⟨kp, ap⟩ := p
    simp only [List.map_cons]
    by_cases hp : kp = k1
    · have hkpk : kp ≠ k := by rw [hp]; exact h
      rw [if_pos (show (kp, ap).1 = k1 from hp)]
      rw [findArr_cons, findArr_cons, if_neg h, if_neg hkpk]
      exact ih
    · rw [if_neg (show ¬(kp, ap).1 = k1 from hp)]
      rw [findArr_cons, findArr_cons]
      by_cases hpk : kp = k
      · rw [if_pos hpk, if_pos hpk]
      · rw [if_neg hpk, if_neg hpk]
        exact ih

theorem findArr_append_single {m : FieldMapping} {k1 k : String} {a : Arr} (h : k1 ≠ k) :
    findArr (m ++ [(k1, a)]) k = findArr m k := by
  induction m with
  | nil => rw [List.nil_append, findArr_cons, if_neg h]
  | cons p tl ih =>
    obtain ⟨kp, ap⟩ := p
    rw [List.cons_append, findArr_cons, findArr_cons]
    by_cases hpk : kp = k
    · rw [if_pos hpk, if_pos hpk]
    · rw [if_neg hpk, if_neg hpk]
      exact ih

theorem findArr_setKey_ne {m : FieldMapping} {k1 k : String} {a : Arr} (h : k1 ≠ k) :
    findArr (setKey m k1 a) k = findArr m k := by
  unfold setKey
  split
  · exact findArr_map_set h
  · exact findArr_append_single h

theorem applyWeights_findArr_notMem {dims : List String} {input : FieldMapping}
    {ref : Arr} {w out : FieldMapping} {wd : List (String × ValueSpec)} {k : String}
    (hk : k ∉ wd.map Prod.fst) (h : applyWeights dims input ref w wd = .ok out) :
    findArr out k = findArr w k := by
  induction wd generalizing w with
  | nil => simp only [applyWeights, Except.ok.injEq] at h; subst h; rfl
  | cons hd tl ih =>
    obtain ⟨k1, v1⟩ := hd
    simp only [applyWeights] at h
    cases hr : resolveWeightValue dims input ref v1 with
    | error e1 => rw [hr] at h; simp at h
    | ok a =>
      rw [hr] at h
      have hk1 : k1 ≠ k := by
        intro hkk; subst hkk; exact hk (by simp)
      have htl : k ∉ tl.map Prod.fst := by
        intro hm; exact hk (by simp [hm])
      rw [ih htl h, findArr_setKey_ne hk1]

theorem keysOf_setKey_mem {m : FieldMapping} {k : String} {a : Arr} (h : k ∈ keysOf m) :
    keysOf (setKey m k a) = keysOf m := by
  unfold setKey
  rw [if_pos h]
  unfold keysOf
  rw [List.map_map]
  apply List.map_congr_left
  intro p _
  by_cases hpk : p.1 = k <;> simp [hpk]

theorem mem_setKey {m : FieldMapping} {k : String} {a : Arr} {p : String × Arr}
    (h : p ∈ setKey m k a) : p = (k, a) ∨ p ∈ m := by
  unfold setKey at h
  split at h
  · obtain ⟨q, hq, hqe⟩ := List.mem_map.1 h
    by_cases hqk : q.1 = k
    · left; rw [← hqe]; simp [hqk]
    · right; rw [← hqe]; simp [hqk]; exact hq
  · rcases List.mem_append.1 h with h1 | h2
    · right; exact h1
    · left; simpa using h2

theorem applyWeights_keys {dims : List String} {input : FieldMapping} {ref : Arr}
    {w out : FieldMapping} {wd : List (String × ValueSpec)}
    (hsub : ∀ p ∈ wd, p.1 ∈ keysOf w) (h : applyWeights dims input ref w wd = .ok out) :
    keysOf out = keysOf w := by
  induction wd generalizing w with
  | nil => simp only [applyWeights, Except.ok.injEq] at h; subst h; rfl
  | cons hd tl ih =>
    obtain ⟨k1, v1⟩ := hd
    simp only [applyWeights] at h
    cases hr : resolveWeightValue dims input ref v1 with
    | error e1 => rw [hr] at h; simp at h
    | ok a =>
      rw [hr] at h
      have hk1 : k1 ∈ keysOf w := hsub (k1, v1) (List.mem_cons_self _ _)
      have hsub2 : ∀ p ∈ tl, p.1 ∈ keysOf (setKey w k1 a) := by
        intro p hp
        rw [keysOf_setKey_mem hk1]
        exact hsub p (List.mem_cons_of_mem _ hp)
      rw [ih hsub2 h, keysOf_setKey_mem hk1]

theorem length_evalSym (dims : List String) (input : FieldMapping) (e : SymExpr) :
    (evalSym dims input e).length = sampleCount input := by
  simp [evalSym]

/-- Contract the spec states for callable value specs: applied to the given
FieldMapping they return either a scalar or a per-sample array (one entry per
sample); other spec kinds satisfy it vacuously. -/
def funcLenOk (input : FieldMapping) : ValueSpec → Prop
  | .func f =>
    match f input with
    | .inl _ => True
    | .inr a => a.length = sampleCount input
  | _ => True

theorem resolveLabelValue_length {dims : List String} {input : FieldMapping}
    {v : ValueSpec} {a : Arr}
    (hf : funcLenOk input v) (h : resolveLabelValue dims input v = .ok a) :
    a.length = sampleCount input := by
  cases v with
  | num c =>
    simp only [resolveLabelValue, Except.ok.injEq] at h
    subst h; simp [fullLike, sampleCount]
  | expr e =>
    simp only [resolveLabelValue, Except.ok.injEq] at h
    subst h; exact length_evalSym dims input e
  | func f =>
    simp only [resolveLabelValue] at h
    cases hfi : f input with
    | inl c =>
      rw [hfi] at h
      simp only [Except.ok.injEq] at h
      subst h; simp [fullLike, sampleCount]
    | inr arr =>
      rw [hfi] at h
      simp only [Except.ok.injEq] at h
      subst h
      simpa [funcLenOk, hfi] using hf
  | str s => simp [resolveLabelValue] at h
  | other t => simp [resolveLabelValue] at h

theorem resolveWeightValue_length {dims : List String} {input : FieldMapping}
    {ref : Arr} {v : ValueSpec} {a : Arr} {N : ℕ}
    (href : ref.length = N) (hN : sampleCount input = N) (hf : funcLenOk input v)
    (h : resolveWeightValue dims input ref v = .ok a) : a.length = N := by
  cases v with
  | num c =>
    simp only [resolveWeightValue, Except.ok.injEq] at h
    subst h; simp [fullLike, href]
  | str s =>
    simp only [resolveWeightValue, Except.ok.injEq] at h
    subst h; rw [length_evalSym, hN]
  | expr e =>
    simp only [resolveWeightValue, Except.ok.injEq] at h
    subst h; rw [length_evalSym, hN]
  | func f =>
    simp only [resolveWeightValue] at h
    cases hfi : f input with
    | inl c =>
      rw [hfi] at h
      simp only [Except.ok.injEq] at h
      subst h; rw [← hN]; simp [fullLike, sampleCount]
    | inr arr =>
      rw [hfi] at h
      simp only [Except.ok.injEq] at h
      subst h
      rw [← hN]
      simpa [funcLenOk, hfi] using hf
  | other t => simp [resolveWeightValue] at h

theorem labelsOf_mem_length {dims : List String} {input : FieldMapping}
    {ld : List (String × ValueSpec)} {out : FieldMapping}
    (hf : ∀ p ∈ ld, funcLenOk input p.2) (h : labelsOf dims input ld = .ok out) :
    ∀ p ∈ out, p.2.length = sampleCount input := by
  intro p hp
  obtain ⟨k, a⟩ := p
  obtain ⟨v, hv, hva⟩ := labelsOf_mem h hp
  exact resolveLabelValue_length (hf (k, v) hv) hva

theorem applyWeights_mem_length {dims : List String} {input : FieldMapping}
    {ref : Arr} {w out : FieldMapping} {wd : List (String × ValueSpec)} {N : ℕ}
    (href : ref.length = N) (hN : sampleCount input = N)
    (hw : ∀ p ∈ w, p.2.length = N) (hf : ∀ p ∈ wd, funcLenOk input p.2)
    (h : applyWeights dims input ref w wd = .ok out) :
    ∀ p ∈ out, p.2.length = N := by
  induction wd generalizing w with
  | nil => simp only [applyWeights, Except.ok.injEq] at h; subst h; exact hw
  | cons hd tl ih =>
    obtain ⟨k1, v1⟩ := hd
    simp only [applyWeights] at h
    cases hr : resolveWeightValue dims input ref v1 with
    | error e1 => rw [hr] at h; simp at h
    | ok a =>
      rw [hr] at h
      have ha : a.length = N :=
        resolveWeightValue_length href hN (hf (k1, v1) (List.mem_cons_self _ _)) hr
      have hw2 : ∀ p ∈ setKey w k1 a, p.2.length = N := by
        intro p hp
        rcases mem_setKey hp with rfl | hpm
        · exact ha
        · exact hw p hpm
      exact ih hw2 (fun p hp => hf p (List.mem_cons_of_mem _ hp)) h

theorem keysOf_scaleArea (it : ℕ) (m : FieldMapping) :
    keysOf (scaleArea it m) = keysOf m := by
  unfold keysOf scaleArea
  rw [List.map_map]
  apply List.map_congr_left
  intro p _
  by_cases hp : p.1 = "area" <;> simp [hp]

theorem mem_scaleArea {it : ℕ} {m : FieldMapping} {p : String × Arr}
    (h : p ∈ scaleArea it m) : ∃ q ∈ m, p.1 = q.1 ∧ p.2.length = q.2.length := by
  obtain ⟨q, hq, hqe⟩ := List.mem_map.1 h
  refine ⟨q, hq, ?_⟩
  by_cases hqa : q.1 = "area" <;> simp [hqa] at hqe <;> rw [← hqe] <;> simp [hqa]

theorem sampleCount_scaleArea (it : ℕ) (m : FieldMapping) :
    sampleCount (scaleArea it m) = sampleCount m := by
  cases m with
  | nil => rfl
  | cons p tl =>
    obtain ⟨kp, ap⟩ := p
    by_cases hp : kp = "area" <;>
      simp [scaleArea, sampleCount, firstArr, hp]

theorem BoundaryConstraint.init_ok {lex : List (String × (String ⊕ SymExpr))}
    {ld : List (String × ValueSpec)} {geom : Geometry} {cfg : DataloaderCfg}
    {wd : Option (List (String × ValueSpec))} {r : BCResult}
    (h : BoundaryConstraint.init lex ld geom cfg wd = .ok r) :
    ∃ label weight,
      labelsOf geom.dim_keys r.input ld = .ok label ∧
      applyWeights geom.dim_keys r.input (firstArr label)
        (label.map (fun p => (p.1, onesLike (firstArr label)))) (wd.getD []) = .ok weight ∧
      r.input = scaleArea cfg.iters_per_epoch
        (geom.sample_boundary (cfg.batch_size * cfg.iters_per_epoch)) ∧
      r.label = label ∧ r.weight = weight ∧
      r.label_expr = processLabelExpr lex ∧
      r.input_keys = geom.dim_keys ∧
      r.output_keys = ld.map Prod.fst ++ (if geom.isMesh then ["area"] else []) := by
  simp only [BoundaryConstraint.init] at h
  split at h
  next e heq => simp at h
  next label heq =>
    split at h
    next e heq2 => simp at h
    next weight heq2 =>
      simp only [Except.ok.injEq] at h
      subst h
      exact ⟨label, weight, heq, heq2, rfl, rfl, rfl, rfl, rfl, rfl⟩

theorem findArr_map_const {m : FieldMapping} {k : String} (g : Arr) (h : k ∈ keysOf m) :
    findArr (m.map (fun p => (p.1, g))) k = some g := by
  induction m with
  | nil => simp [keysOf] at h
  | cons p tl ih =>
    obtain ⟨kp, ap⟩ := p
    simp only [List.map_cons]
    rw [findArr_cons]
    by_cases hpk : kp = k
    · rw [if_pos hpk]
    · rw [if_neg hpk]
      apply ih
      have h2 : k = kp ∨ k ∈ keysOf tl := by simpa [keysOf] using h
      rcases h2 with h2 | h2
      · exact absurd h2.symm hpk
      · exact h2

theorem recognizedLabel_ok {dims : List String} {input : FieldMapping} {v : ValueSpec}
    (h : recognizedLabel v = true) :
    ∃ a, resolveLabelValue dims input v = .ok a := by
  cases v with
  | num c => exact ⟨_, rfl⟩
  | expr e => exact ⟨_, rfl⟩
  | func f =>
    cases hf : f input with
    | inl c =>
      exact ⟨fullLike (firstArr input) c, by simp [resolveLabelValue, hf]⟩
    | inr a => exact ⟨a, by simp [resolveLabelValue, hf]⟩
  | str s => simp [recognizedLabel] at h
  | other t => simp [recognizedLabel] at h

theorem labelsOf_error_at {dims : List String} {input : FieldMapping}
    {pre post : List (String × ValueSpec)} {k tn : String}
    (hpre : ∀ p ∈ pre, recognizedLabel p.2 = true) :
    labelsOf dims input (pre ++ (k, ValueSpec.other tn) :: post) =
      .error (.unsupportedValueType tn) := by
  induction pre with
  | nil => simp [labelsOf, resolveLabelValue]
  | cons hd tl ih =>
    obtain ⟨k1, v1⟩ := hd
    obtain ⟨a, ha⟩ :=
      @recognizedLabel_ok dims input v1 (hpre (k1, v1) (List.mem_cons_self _ _))
    have ih2 := ih (fun p hp => hpre p (List.mem_cons_of_mem _ hp))
    simp [labelsOf, ha, ih2]

theorem BoundaryConstraint.init_label_error {lex : List (String × (String ⊕ SymExpr))}
    {ld : List (String × ValueSpec)} {geom : Geometry} {cfg : DataloaderCfg}
    {wd : Option (List (String × ValueSpec))} {e : ConstraintError}
    (hl : labelsOf geom.dim_keys
      (scaleArea cfg.iters_per_epoch
        (geom.sample_boundary (cfg.batch_size * cfg.iters_per_epoch))) ld = .error e) :
    BoundaryConstraint.init lex ld geom cfg wd = .error e := by
  simp only [BoundaryConstraint.init]
  rw [hl]

theorem map_zipWith_max {α : Type} (l : List α) (f g : α → ℚ) :
    l.map (fun i => max (f i) (g i)) = List.zipWith max (l.map f) (l.map g) := by
  induction l with
  | nil => rfl
  | cons hd tl ih =>
    simp only [List.map_cons, List.zipWith_cons_cons]
    rw [ih]

def demoGeom : Geometry := ⟨["x"], false, fun _ => [("x", [0, 1/2, 1])]⟩

def demoMesh : Geometry := ⟨["x"], true, fun _ => [("x", [0, 1]), ("area", [1, 1])]⟩

def demoCfg : DataloaderCfg := ⟨3, 1⟩

def demoBC1 : BCResult :=
  ⟨[], ["x"], ["u"], [("x", [0, 1/2, 1])], [("u", [2, 2, 2])], [("u", [1, 1, 1])]⟩

def demoMeshRes : BCResult :=
  ⟨[], ["x"], ["u", "area"], [("x", [0, 1]), ("area", [1, 1])],
    [("u", [1, 1])], [("u", [1, 1])]⟩

/-- C1: for every constraint constructed with a constant numeric label spec `c`
for an output key `k`, the resolved label array `label[k]` has length equal to
the sample count of the input FieldMapping and every entry equals `c`. -/
theorem constant_label_resolves_uniformly
    (lex : List (String × (String ⊕ SymExpr))) (ld : List (String × ValueSpec))
    (geom : Geometry) (cfg : DataloaderCfg) (wd : Option (List (String × ValueSpec)))
    (r : BCResult) (k : String) (c : ℚ)
    (hnd : (ld.map Prod.fst).Nodup) (hmem : (k, ValueSpec.num c) ∈ ld)
    (hok : BoundaryConstraint.init lex ld geom cfg wd = .ok r) :
    findArr r.label k = some (List.replicate (sampleCount r.input) c) := by
  obtain ⟨label, weight, hl, haw, hin, hlab, hw, _, _, _⟩ := BoundaryConstraint.init_ok hok
  obtain ⟨a, hra, hfa⟩ := labelsOf_findArr hl hnd hmem
  simp only [resolveLabelValue, Except.ok.injEq] at hra
  rw [hlab, hfa, ← hra]
  rfl

/-- Witness for C1 at a concrete three-point boundary sample with constant
label spec `2`. -/
theorem constant_label_resolves_uniformly_witness :
    findArr demoBC1.label "u" = some (List.replicate (sampleCount demoBC1.input) 2) :=
  constant_label_resolves_uniformly [] [("u", ValueSpec.num 2)] demoGeom demoCfg none
    demoBC1 "u" 2 (by decide) (List.mem_singleton.2 rfl)
    (of_decide_eq_true (by with_unfolding_all rfl))

/-- C2 counterexample: a label value spec supplied as a symbolic-expression
string makes `BoundaryConstraint` construction fail with the unsupported-type
error (the string-parsing branch exists only for `label_expr` and for weight
specs), refuting the claim that construction does not fail on such a string. -/
theorem string_label_spec_fails :
    BoundaryConstraint.init [] [("u", ValueSpec.str "x")] demoGeom demoCfg none =
      .error (.unsupportedValueType "str") :=
  of_decide_eq_true (by with_unfolding_all rfl)

/-- C2 (amended): a weight value spec supplied as a symbolic-expression string
is parsed into an expression tree and compiled into a numeric function
evaluated on the input (weight resolution does not fail on a string), the
compiled evaluator supports the element-wise maximum of two expressions in
addition to arithmetic, and a label value spec supplied as a string is instead
rejected with the unsupported-type error. -/
theorem string_weight_spec_compiles (dims : List String) (input : FieldMapping)
    (ref : Arr) (s : String) (e1 e2 : SymExpr) :
    resolveWeightValue dims input ref (ValueSpec.str s) =
      .ok (evalSym dims input (parse_expr s)) ∧
    resolveLabelValue dims input (ValueSpec.str s) =
      .error (.unsupportedValueType "str") ∧
    evalSym dims input (SymExpr.amax e1 e2) =
      List.zipWith max (evalSym dims input e1) (evalSym dims input e2) := by
  refine ⟨rfl, rfl, ?_⟩
  unfold evalSym
  simp only [SymExpr.evalAt]
  exact map_zipWith_max _ _ _

/-- C3 counterexample: over a mesh geometry, `area` is an output key and is
absent from the (absent) weight spec, yet the weight mapping holds no `area`
entry at all, let alone an all-ones array. -/
theorem weight_default_output_key_counterexample :
    BoundaryConstraint.init [] [("u", ValueSpec.num 1)] demoMesh demoCfg none =
      .ok demoMeshRes ∧
    "area" ∈ demoMeshRes.output_keys ∧
    findArr demoMeshRes.weight "area" = none :=
  ⟨of_decide_eq_true (by with_unfolding_all rfl), by decide, by decide⟩

/-- C3 (amended): for every label key `k` (key of the label mapping, i.e. of
`label_dict`) absent from the supplied weight specification mapping — in
particular whenever no weight specification is supplied — the resulting weight
array for `k` is an all-ones array of length equal to the sample count, under
the spec's contract that callable specs return per-sample arrays; only keys
present in the weight specification receive a different value. -/
theorem weight_defaults_to_ones
    (lex : List (String × (String ⊕ SymExpr))) (ld : List (String × ValueSpec))
    (geom : Geometry) (cfg : DataloaderCfg) (wd : Option (List (String × ValueSpec)))
    (r : BCResult) (k : String)
    (hok : BoundaryConstraint.init lex ld geom cfg wd = .ok r)
    (hk : k ∈ keysOf r.label)
    (hnk : k ∉ (wd.getD []).map Prod.fst)
    (hf : ∀ p ∈ ld, funcLenOk r.input p.2) :
    findArr r.weight k = some (List.replicate (sampleCount r.input) 1) := by
  obtain ⟨label, weight, hl, haw, hin, hlab, hwt, _, _, _⟩ := BoundaryConstraint.init_ok hok
  rw [hlab] at hk
  rw [hwt, applyWeights_findArr_notMem hnk haw, findArr_map_const _ hk]
  have hfirst : (firstArr label).length = sampleCount r.input := by
    cases label with
    | nil => simp [keysOf] at hk
    | cons hd tll =>
      have hhd : hd.2.length = sampleCount r.input :=
        labelsOf_mem_length hf hl hd (List.mem_cons_self _ _)
      simpa [firstArr] using hhd
  rw [show onesLike (firstArr label) = List.replicate (sampleCount r.input) 1 by
    rw [← hfirst]; rfl]

/-- Witness for C3 at a concrete constraint with no weight spec supplied. -/
theorem weight_defaults_to_ones_witness :
    findArr demoBC1.weight "u" = some (List.replicate (sampleCount demoBC1.input) 1) :=
  weight_defaults_to_ones [] [("u", ValueSpec.num 2)] demoGeom demoCfg none demoBC1 "u"
    (of_decide_eq_true (by with_unfolding_all rfl)) (by decide) (by decide)
    (by intro p hp; fin_cases hp; trivial)

/-- C9: a label value spec of unrecognized kind (not a constant, expression or
callable) makes construction fail with the unsupported-type error naming the
offending type, provided the specs before it resolve; likewise a weight value
spec of unrecognized kind resolves to that error. -/
theorem unrecognized_spec_fails
    (lex : List (String × (String ⊕ SymExpr))) (pre post : List (String × ValueSpec))
    (k tn : String) (geom : Geometry) (cfg : DataloaderCfg)
    (wd : Option (List (String × ValueSpec)))
    (hpre : ∀ p ∈ pre, recognizedLabel p.2 = true) :
    BoundaryConstraint.init lex (pre ++ (k, ValueSpec.other tn) :: post) geom cfg wd =
      .error (.unsupportedValueType tn) ∧
    ∀ (dims : List String) (input : FieldMapping) (ref : Arr),
      resolveWeightValue dims input ref (ValueSpec.other tn) =
        .error (.unsupportedValueType tn) := by
  exact ⟨BoundaryConstraint.init_label_error (labelsOf_error_at hpre),
    fun dims input ref => rfl⟩

/-- Witness for C9: a `NoneType` label spec after one recognized constant
spec. -/
theorem unrecognized_spec_fails_witness :
    BoundaryConstraint.init [] ([("a", ValueSpec.num 1)] ++
        ("b", ValueSpec.other "NoneType") :: []) demoGeom demoCfg none =
      .error (.unsupportedValueType "NoneType") ∧
    ∀ (dims : List String) (input : FieldMapping) (ref : Arr),
      resolveWeightValue dims input ref (ValueSpec.other "NoneType") =
        .error (.unsupportedValueType "NoneType") :=
  unrecognized_spec_fails [] [("a", ValueSpec.num 1)] [] "b" "NoneType"
    demoGeom demoCfg none (by intro p hp; fin_cases hp; trivial)

/-- C10: construction rebinds the caller's `label_expr` dict and mutates it in
place — every string-valued entry is replaced by its parsed expression tree, no
string value survives, and the post-construction state of the dict (also
visible as `label_expr` on the constraint) differs from the original whenever a
string entry was present. -/
theorem label_expr_mutated_in_place
    (lex : List (String × (String ⊕ SymExpr))) (k s : String)
    (hmem : (k, Sum.inl s) ∈ lex) :
    processLabelExpr lex ≠ lex ∧
    (∀ p ∈ processLabelExpr lex, ∀ s2, p.2 ≠ Sum.inl s2) ∧
    (∀ (ld : List (String × ValueSpec)) (geom : Geometry) (cfg : DataloaderCfg)
      (wd : Option (List (String × ValueSpec))) (r : BCResult),
      BoundaryConstraint.init lex ld geom cfg wd = .ok r →
      r.label_expr = processLabelExpr lex) := by
  have hstr : ∀ p ∈ processLabelExpr lex, ∀ s2, p.2 ≠ Sum.inl s2 := by
    intro p hp s2
    obtain ⟨q, hq, hqe⟩ := List.mem_map.1 hp
    cases hq2 : q.2 with
    | inl s3 =>
      rw [hq2] at hqe
      simp only at hqe
      rw [← hqe]
      simp
    | inr e =>
      rw [hq2] at hqe
      simp only at hqe
      rw [← hqe]
      simp [hq2]
  refine ⟨?_, hstr, ?_⟩
  · intro heq
    exact hstr (k, Sum.inl s) (by rw [heq]; exact hmem) s rfl
  · intro ld geom cfg wd r hok
    obtain ⟨_, _, _, _, _, _, _, hle, _, _⟩ := BoundaryConstraint.init_ok hok
    exact hle

/-- Witness for C10 at a one-entry string-valued `label_expr` dict. -/
theorem label_expr_mutated_in_place_witness :
    processLabelExpr [("u", (Sum.inl "x" : String ⊕ SymExpr))] ≠
      [("u", (Sum.inl "x" : String ⊕ SymExpr))] ∧
    (∀ p ∈ processLabelExpr [("u", (Sum.inl "x" : String ⊕ SymExpr))],
      ∀ s2, p.2 ≠ Sum.inl s2) ∧
    (∀ (ld : List (String × ValueSpec)) (geom : Geometry) (cfg : DataloaderCfg)
      (wd : Option (List (String × ValueSpec))) (r : BCResult),
      BoundaryConstraint.init [("u", (Sum.inl "x" : String ⊕ SymExpr))] ld geom cfg wd =
        .ok r →
      r.label_expr = processLabelExpr [("u", (Sum.inl "x" : String ⊕ SymExpr))]) :=
  label_expr_mutated_in_place _ "u" "x" (List.mem_singleton.2 rfl)

theorem keysOf_map_const (m : FieldMapping) (g : Arr) :
    keysOf (m.map (fun p => (p.1, g))) = keysOf m := by
  unfold keysOf
  rw [List.map_map]
  rfl

def demoBC2 : BCResult :=
  ⟨[], ["x"], ["u"], [("x", [0, 1/2, 1])], [("u", [2, 2, 2])], [("u", [3, 3, 3])]⟩

/-- C4 counterexample: over a mesh geometry the constructed constraint has
`output_keys = ["u", "area"]` while the label mapping's key set is `["u"]`, so
the label FieldMapping does not have exactly the key set `output_keys`. -/
theorem mappings_aligned_counterexample :
    BoundaryConstraint.init [] [("u", ValueSpec.num 1)] demoMesh demoCfg none =
      .ok demoMeshRes ∧
    keysOf demoMeshRes.label ≠ demoMeshRes.output_keys :=
  ⟨of_decide_eq_true (by with_unfolding_all rfl), by decide⟩

/-- C4 (amended): for every successfully constructed boundary constraint over a
non-mesh geometry whose sampler returns a uniform FieldMapping, where every
weight-spec key is among the label keys and every callable spec obeys the
per-sample contract, the label and weight FieldMappings have exactly the key
set `output_keys`, and every array in input, label and weight has length equal
to the sample count of the input FieldMapping. -/
theorem constraint_mappings_aligned
    (lex : List (String × (String ⊕ SymExpr))) (ld : List (String × ValueSpec))
    (geom : Geometry) (cfg : DataloaderCfg) (wd : Option (List (String × ValueSpec)))
    (r : BCResult)
    (hok : BoundaryConstraint.init lex ld geom cfg wd = .ok r)
    (hmesh : geom.isMesh = false)
    (huni : ∀ p ∈ geom.sample_boundary (cfg.batch_size * cfg.iters_per_epoch),
      p.2.length = sampleCount (geom.sample_boundary (cfg.batch_size * cfg.iters_per_epoch)))
    (hwk : ∀ p ∈ wd.getD [], p.1 ∈ ld.map Prod.fst)
    (hf : ∀ p ∈ ld ++ wd.getD [], funcLenOk r.input p.2) :
    keysOf r.label = r.output_keys ∧
    keysOf r.weight = r.output_keys ∧
    (∀ p ∈ r.input, p.2.length = sampleCount r.input) ∧
    (∀ p ∈ r.label, p.2.length = sampleCount r.input) ∧
    (∀ p ∈ r.weight, p.2.length = sampleCount r.input) := by
  obtain ⟨label, weight, hl, haw, hin, hlab, hwt, _, _, hout⟩ :=
    BoundaryConstraint.init_ok hok
  have houtk : r.output_keys = ld.map Prod.fst := by rw [hout, hmesh]; simp
  have hlk : keysOf label = ld.map Prod.fst := labelsOf_keys hl
  have hinlen : ∀ p ∈ r.input, p.2.length = sampleCount r.input := by
    intro p hp
    rw [hin] at hp ⊢
    obtain ⟨q, hq, _, hlen⟩ := mem_scaleArea hp
    rw [hlen, sampleCount_scaleArea]
    exact huni q hq
  have hlablen : ∀ p ∈ label, p.2.length = sampleCount r.input :=
    labelsOf_mem_length (fun p hp => hf p (List.mem_append_left _ hp)) hl
  cases label with
  | nil =>
    have hld : ld.map Prod.fst = [] := by rw [← hlk]; rfl
    have hwd : wd.getD [] = [] := by
      cases hwdl : wd.getD [] with
      | nil => rfl
      | cons p tlw =>
        have hm := hwk p (by rw [hwdl]; exact List.mem_cons_self _ _)
        rw [hld] at hm
        simp at hm
    rw [hwd] at haw
    simp only [List.map_nil, applyWeights, Except.ok.injEq] at haw
    refine ⟨?_, ?_, hinlen, ?_, ?_⟩
    · rw [hlab, houtk, hld]; rfl
    · rw [hwt, ← haw, houtk, hld]; rfl
    · rw [hlab]; exact hlablen
    · rw [hwt, ← haw]; intro p hp; simp at hp
  | cons hd tll =>
    have href : (firstArr (hd :: tll)).length = sampleCount r.input := by
      simpa [firstArr] using hlablen hd (List.mem_cons_self _ _)
    have hw0len : ∀ p ∈ (hd :: tll).map
        (fun p => (p.1, onesLike (firstArr (hd :: tll)))),
        p.2.length = sampleCount r.input := by
      intro p hp
      obtain ⟨q, _, hqe⟩ := List.mem_map.1 hp
      rw [← hqe]
      simpa [onesLike, fullLike] using href
    have hwlen : ∀ p ∈ weight, p.2.length = sampleCount r.input :=
      applyWeights_mem_length href rfl hw0len
        (fun p hp => hf p (List.mem_append_right _ hp)) haw
    have hsub : ∀ p ∈ wd.getD [], p.1 ∈ keysOf ((hd :: tll).map
        (fun p => (p.1, onesLike (firstArr (hd :: tll))))) := by
      intro p hp
      rw [keysOf_map_const, hlk]
      exact hwk p hp
    have hwkeys : keysOf weight = keysOf (hd :: tll) := by
      rw [applyWeights_keys hsub haw, keysOf_map_const]
    refine ⟨?_, ?_, hinlen, ?_, ?_⟩
    · rw [hlab, houtk, hlk]
    · rw [hwt, houtk, hwkeys, hlk]
    · rw [hlab]; exact hlablen
    · rw [hwt]; exact hwlen

/-- Witness for C4 at a concrete non-mesh constraint with a weight override. -/
theorem constraint_mappings_aligned_witness :
    keysOf demoBC2.label = demoBC2.output_keys ∧
    keysOf demoBC2.weight = demoBC2.output_keys ∧
    (∀ p ∈ demoBC2.input, p.2.length = sampleCount demoBC2.input) ∧
    (∀ p ∈ demoBC2.label, p.2.length = sampleCount demoBC2.input) ∧
    (∀ p ∈ demoBC2.weight, p.2.length = sampleCount demoBC2.input) :=
  constraint_mappings_aligned [] [("u", ValueSpec.num 2)] demoGeom demoCfg
    (some [("u", ValueSpec.num 3)]) demoBC2
    (of_decide_eq_true (by with_unfolding_all rfl)) rfl
    (of_decide_eq_true (by with_unfolding_all rfl))
    (of_decide_eq_true (by with_unfolding_all rfl))
    (by intro p hp; fin_cases hp <;> trivial)

theorem mkSupervised_ok {ikeys okeys : List String} {data : FieldMapping} {numT : ℕ}
    {wd : Option (List (String × ValueSpec))} {r : SCResult}
    (h : mkSupervised ikeys okeys data numT wd = .ok r) :
    ∃ weight,
      applyWeights ikeys (ikeys.map (fun k => (k, getArr data k)))
        (firstArr (okeys.map (fun k => (k, getArr data k))))
        ((okeys.map (fun k => (k, getArr data k))).map
          (fun p => (p.1, onesLike (firstArr (okeys.map (fun k => (k, getArr data k)))))))
        (wd.getD []) = .ok weight ∧
      r = ⟨ikeys, okeys, ikeys.map (fun k => (k, getArr data k)),
        okeys.map (fun k => (k, getArr data k)), weight, numT⟩ := by
  simp only [mkSupervised] at h
  split at h
  next e heq => simp at h
  next weight heq =>
    simp only [Except.ok.injEq] at h
    exact ⟨weight, heq, h.symm⟩

theorem mkSupervised_error {ikeys okeys : List String} {data : FieldMapping} {numT : ℕ}
    {wd : Option (List (String × ValueSpec))} {e : ConstraintError}
    (h : mkSupervised ikeys okeys data numT wd = .error e) :
    ∃ t, e = .unsupportedValueType t := by
  simp only [mkSupervised] at h
  split at h
  next e2 heq =>
    simp only [Except.error.injEq] at h
    subst h
    exact applyWeights_error heq
  next weight heq => simp at h

theorem SupervisedConstraint.init_cross {data_file : String} {fileData : FieldMapping}
    {ik lk : List String} {ad : List (String × String)}
    {wd : Option (List (String × ValueSpec))} {ts : List ℚ}
    (hcsv : data_file.endsWith ".csv" = true)
    (hnt : "t" ∉ keysOf fileData) :
    SupervisedConstraint.init data_file fileData ik lk ad wd (some ts) =
      mkSupervised ("t" :: ik.map (aliasGet ad)) (lk.map (aliasGet ad))
        (convert_to_dict
          (combine_array_with_time
            (convert_to_array fileData (ik.map (aliasGet ad) ++ lk.map (aliasGet ad))) ts)
          (("t" :: ik.map (aliasGet ad)) ++ lk.map (aliasGet ad)))
        ts.length wd := by
  unfold SupervisedConstraint.init
  rw [if_pos hcsv, if_neg (by simp)]
  dsimp only
  rw [if_neg hnt]

theorem SupervisedConstraint.init_filter {data_file : String} {fileData : FieldMapping}
    {ik lk : List String} {ad : List (String × String)}
    {wd : Option (List (String × ValueSpec))} {ts : List ℚ}
    (hcsv : data_file.endsWith ".csv" = true)
    (ht : "t" ∈ keysOf fileData) :
    SupervisedConstraint.init data_file fileData ik lk ad wd (some ts) =
      mkSupervised (ik.map (aliasGet ad)) (lk.map (aliasGet ad))
        (convert_to_dict
          (filterByMask
            (convert_to_array fileData (ik.map (aliasGet ad) ++ lk.map (aliasGet ad)))
            (buildMask (getArr fileData "t") ts))
          (ik.map (aliasGet ad) ++ lk.map (aliasGet ad)))
        ts.length wd := by
  unfold SupervisedConstraint.init
  rw [if_pos hcsv, if_neg (by simp)]
  dsimp only
  rw [if_pos ht]

/-- C8: supervised construction fails with the unsupported-file-format error if
and only if the data file's name does not end in ".csv"; with a ".csv" name the
loaded data is used and construction proceeds past the format check (it can
only fail for the other, distinct error kinds). -/
theorem unsupported_format_iff_non_csv
    (data_file : String) (fileData : FieldMapping) (ik lk : List String)
    (ad : List (String × String)) (wd : Option (List (String × ValueSpec)))
    (ts : Option (List ℚ)) :
    SupervisedConstraint.init data_file fileData ik lk ad wd ts =
      .error .unsupportedFileFormat ↔ data_file.endsWith ".csv" = false := by
  unfold SupervisedConstraint.init
  by_cases hcsv : data_file.endsWith ".csv" = true
  · rw [if_pos hcsv, hcsv]
    simp only [Bool.true_eq_false, iff_false]
    intro h
    by_cases hmt : "t" ∉ keysOf fileData ∧ ts = none
    · rw [if_pos hmt] at h
      exact ConstraintError.noConfusion (Except.error.inj h)
    · rw [if_neg hmt] at h
      cases ts with
      | some tsl =>
        dsimp only at h
        by_cases htd : "t" ∈ keysOf fileData
        · rw [if_pos htd] at h
          obtain ⟨t, ht2⟩ := mkSupervised_error h
          exact ConstraintError.noConfusion ht2
        · rw [if_neg htd] at h
          obtain ⟨t, ht2⟩ := mkSupervised_error h
          exact ConstraintError.noConfusion ht2
      | none =>
        dsimp only at h
        obtain ⟨t, ht2⟩ := mkSupervised_error h
        exact ConstraintError.noConfusion ht2
  · have hf : data_file.endsWith ".csv" = false := by simpa using hcsv
    rw [if_neg hcsv, hf]
    simp

/-- C7: supervised construction fails with the missing-temporal-information
error if and only if the file is a ".csv" whose loaded data has no "t" column
and no explicit timestamps were supplied; the check happens before any data
combination or weight resolution, so nothing is partially constructed. -/
theorem missing_temporal_iff
    (data_file : String) (fileData : FieldMapping) (ik lk : List String)
    (ad : List (String × String)) (wd : Option (List (String × ValueSpec)))
    (ts : Option (List ℚ)) :
    SupervisedConstraint.init data_file fileData ik lk ad wd ts =
      .error .missingTemporalInformation ↔
      (data_file.endsWith ".csv" = true ∧ "t" ∉ keysOf fileData ∧ ts = none) := by
  unfold SupervisedConstraint.init
  by_cases hcsv : data_file.endsWith ".csv" = true
  · rw [if_pos hcsv]
    by_cases hmt : "t" ∉ keysOf fileData ∧ ts = none
    · rw [if_pos hmt]
      simp [hcsv, hmt.1, hmt.2]
    · rw [if_neg hmt]
      constructor
      · intro h
        exfalso
        cases ts with
        | some tsl =>
          dsimp only at h
          by_cases htd : "t" ∈ keysOf fileData
          · rw [if_pos htd] at h
            obtain ⟨t, ht2⟩ := mkSupervised_error h
            exact ConstraintError.noConfusion ht2
          · rw [if_neg htd] at h
            obtain ⟨t, ht2⟩ := mkSupervised_error h
            exact ConstraintError.noConfusion ht2
        | none =>
          dsimp only at h
          obtain ⟨t, ht2⟩ := mkSupervised_error h
          exact ConstraintError.noConfusion ht2
      · intro hrhs
        exact absurd ⟨hrhs.2.1, hrhs.2.2⟩ hmt
  · rw [if_neg hcsv]
    constructor
    · intro h
      exact ConstraintError.noConfusion (Except.error.inj h)
    · intro hrhs
      exact absurd hrhs.1 hcsv

theorem length_convert_to_array (data : FieldMapping) (keys : List String) :
    (convert_to_array data keys).length = sampleCount data := by
  simp [convert_to_array]

theorem length_combine_array_with_time (rows : List (List ℚ)) (ts : List ℚ) :
    (combine_array_with_time rows ts).length = ts.length * rows.length := by
  unfold combine_array_with_time
  induction ts with
  | nil => simp
  | cons t1 tl ih =>
    simp only [List.flatMap_cons, List.length_append, List.length_map, ih, List.length_cons]
    ring

theorem count_map_cons (rows : List (List ℚ)) (t1 t : ℚ) (row : List ℚ) :
    (rows.map (fun r => t1 :: r)).count (t :: row) =
      if t1 = t then rows.count row else 0 := by
  induction rows with
  | nil => simp
  | cons r tl ih =>
    by_cases ht : t1 = t
    · subst ht
      by_cases hr : row = r
      · subst hr; simp [List.count_cons, ih]
      · simp [List.count_cons, ih, hr]
    · simp [List.count_cons, ih, ht, Ne.symm ht]

theorem count_combine_array_with_time (rows : List (List ℚ)) (ts : List ℚ)
    (t : ℚ) (row : List ℚ) :
    (combine_array_with_time rows ts).count (t :: row) =
      ts.count t * rows.count row := by
  unfold combine_array_with_time
  induction ts with
  | nil => simp
  | cons t1 tl ih =>
    rw [List.flatMap_cons, List.count_append, ih, count_map_cons]
    by_cases ht : t1 = t
    · subst ht
      simp [List.count_cons, Nat.succ_mul, Nat.add_comm]
    · simp [List.count_cons, ht, Ne.symm ht]

theorem keysOf_convertCols (rows : List (List ℚ)) (j : ℕ) (keys : List String) :
    keysOf (convertCols rows j keys) = keys := by
  induction keys generalizing j with
  | nil => rfl
  | cons k rest ih => simp [convertCols, keysOf] at ih ⊢; exact ih _

theorem mem_convertCols_length {rows : List (List ℚ)} {j : ℕ} {keys : List String}
    {p : String × Arr} (h : p ∈ convertCols rows j keys) : p.2.length = rows.length := by
  induction keys generalizing j with
  | nil => simp [convertCols] at h
  | cons k rest ih =>
    rcases List.mem_cons.1 h with rfl | h2
    · simp
    · exact ih h2

theorem findArr_convertCols {rows : List (List ℚ)} {keys : List String} {k : String}
    (j : ℕ) (hk : k ∈ keys) :
    findArr (convertCols rows j keys) k =
      some (rows.map (fun row => row.getD (j + keys.indexOf k) 0)) := by
  induction keys generalizing j with
  | nil => simp at hk
  | cons k1 rest ih =>
    by_cases h1 : k1 = k
    · subst h1
      simp [convertCols, findArr_cons, List.indexOf_cons_self]
    · have hk2 : k ∈ rest := by
        rcases List.mem_cons.1 hk with h | h
        · exact absurd h.symm h1
        · exact h
      rw [show convertCols rows j (k1 :: rest) =
          (k1, rows.map (fun row => row.getD j 0)) :: convertCols rows (j + 1) rest from rfl]
      rw [findArr_cons, if_neg h1, ih (j + 1) hk2]
      have hidx : List.indexOf k (k1 :: rest) = List.indexOf k rest + 1 := by
        rw [List.indexOf_cons_ne _ h1]
      rw [hidx]
      have harith : j + 1 + List.indexOf k rest = j + (List.indexOf k rest + 1) := by omega
      rw [harith]

theorem findArr_keyed_map {keys : List String} {k : String} (g : String → Arr)
    (hk : k ∈ keys) :
    findArr (keys.map (fun k2 => (k2, g k2))) k = some (g k) := by
  induction keys with
  | nil => simp at hk
  | cons k1 rest ih =>
    simp only [List.map_cons]
    rw [findArr_cons]
    by_cases h1 : k1 = k
    · subst h1; simp
    · have hk2 : k ∈ rest := by
        rcases List.mem_cons.1 hk with h | h
        · exact absurd h.symm h1
        · exact h
      rw [if_neg h1]
      exact ih hk2

theorem map_filterByMask {α β : Type} (g : α → β) (rows : List α) (mask : List Bool) :
    (filterByMask rows mask).map g = filterByMask (rows.map g) mask := by
  induction rows generalizing mask with
  | nil => simp [filterByMask]
  | cons r tl ih =>
    cases mask with
    | nil => simp [filterByMask]
    | cons b mtl =>
      cases b <;> simp [filterByMask, List.filter] at ih ⊢ <;> exact ih mtl

theorem range_map_getD (a : Arr) :
    (List.range a.length).map (fun i => a.getD i 0) = a := by
  apply List.ext_getElem
  · simp
  · intro i h1 h2
    simp [List.getD_eq_getElem, List.getElem?_eq_getElem, h2]

theorem getD_map_indexOf {keys : List String} (f : String → ℚ) {k : String}
    (hk : k ∈ keys) :
    (keys.map f).getD (keys.indexOf k) 0 = f k := by
  have hlt : keys.indexOf k < keys.length := List.indexOf_lt_length.2 hk
  rw [List.getD_eq_getElem _ _ (by simpa using hlt), List.getElem_map]
  congr 1
  simp [@List.indexOf_get String _ k keys hlt]

theorem getArr_length_of_wf {data : FieldMapping} {k : String}
    (hwf : ∀ p ∈ data, p.2.length = sampleCount data) (hk : k ∈ keysOf data) :
    (getArr data k).length = sampleCount data := by
  obtain ⟨a, hfa, hma⟩ := findArr_mem hk
  rw [getArr, hfa]
  exact hwf (k, a) hma

theorem convert_to_array_col {data : FieldMapping} {keys : List String} {k : String}
    (hwf : ∀ p ∈ data, p.2.length = sampleCount data)
    (hk : k ∈ keys) (hkd : k ∈ keysOf data) :
    (convert_to_array data keys).map (fun row => row.getD (keys.indexOf k) 0) =
      getArr data k := by
  unfold convert_to_array
  rw [List.map_map]
  have hcol : ∀ i, ((fun row => row.getD (keys.indexOf k) 0) ∘
      (fun i => keys.map (fun k2 => (getArr data k2).getD i 0))) i =
      (getArr data k).getD i 0 := by
    intro i
    simp only [Function.comp]
    exact getD_map_indexOf (fun k2 => (getArr data k2).getD i 0) hk
  calc (List.range (sampleCount data)).map ((fun row => row.getD (keys.indexOf k) 0) ∘
        (fun i => keys.map (fun k2 => (getArr data k2).getD i 0)))
      = (List.range (sampleCount data)).map (fun i => (getArr data k).getD i 0) := by
        apply List.map_congr_left
        intro i _
        exact hcol i
    _ = (List.range (getArr data k).length).map (fun i => (getArr data k).getD i 0) := by
        rw [getArr_length_of_wf hwf hkd]
    _ = getArr data k := range_map_getD _

theorem buildMask_loop (tArr : Arr) (ts : List ℚ) (i : ℕ) (hi : i < tArr.length) :
    ∀ (m : List Bool), m.length = tArr.length →
    (ts.foldl (fun m2 ti => (m2.zip tArr).map (fun p => p.1 || isClose p.2 ti)) m).getD
        i false =
      (m.getD i false || ts.any (fun ti => isClose (tArr.getD i 0) ti)) := by
  induction ts with
  | nil => intro m _; simp
  | cons t1 tl ih =>
    intro m hm
    rw [List.foldl_cons]
    have hlen : ((m.zip tArr).map (fun p => p.1 || isClose p.2 t1)).length = tArr.length := by
      simp [List.length_zip, hm]
    rw [ih _ hlen]
    have hstep : ((m.zip tArr).map (fun p => p.1 || isClose p.2 t1)).getD i false =
        (m.getD i false || isClose (tArr.getD i 0) t1) := by
      rw [List.getD_eq_getElem _ _ (by rw [hlen]; exact hi), List.getElem_map,
        List.getElem_zip, List.getD_eq_getElem _ _ (by rw [hm]; exact hi),
        List.getD_eq_getElem _ _ hi]
    rw [hstep]
    simp [List.any_cons, Bool.or_assoc]

theorem buildMask_getD (tArr : Arr) (ts : List ℚ) (i : ℕ) (hi : i < tArr.length) :
    (buildMask tArr ts).getD i false =
      ts.any (fun ti => isClose (tArr.getD i 0) ti) := by
  unfold buildMask
  rw [buildMask_loop tArr ts i hi _ (by simp)]
  simp

theorem buildMask_true_iff (tArr : Arr) (ts : List ℚ) (i : ℕ) (hi : i < tArr.length) :
    ((buildMask tArr ts).getD i false = true ↔
      ∃ ti ∈ ts, isClose (tArr.getD i 0) ti = true) := by
  rw [buildMask_getD tArr ts i hi]
  simp [List.any_eq_true]

theorem getArr_convert_filter {data : FieldMapping} {keys : List String} {k : String}
    (mask : List Bool)
    (hwf : ∀ p ∈ data, p.2.length = sampleCount data)
    (hk : k ∈ keys) (hkd : k ∈ keysOf data) :
    getArr (convert_to_dict (filterByMask (convert_to_array data keys) mask) keys) k =
      filterByMask (getArr data k) mask := by
  rw [getArr]
  rw [show convert_to_dict (filterByMask (convert_to_array data keys) mask) keys =
    convertCols (filterByMask (convert_to_array data keys) mask) 0 keys from rfl]
  rw [findArr_convertCols 0 hk]
  simp only [Option.getD_some]
  rw [show (0 + keys.indexOf k) = keys.indexOf k from by omega]
  rw [map_filterByMask, convert_to_array_col hwf hk hkd]

def demoSC1 : SCResult :=
  ⟨["t", "x"], ["u"], [("t", [10, 10, 20, 20]), ("x", [1, 2, 1, 2])],
    [("u", [5, 6, 5, 6])], [("u", [1, 1, 1, 1])], 2⟩

def demoSC2 : SCResult :=
  ⟨["t", "x"], ["u"], [("t", [0, 2]), ("x", [7, 9])],
    [("u", [4, 6])], [("u", [1, 1])], 2⟩

/-- C5: building a supervised constraint from N data rows with no time column
together with T explicit timestamps cross-products rows with timestamps: the
resulting arrays have N×T entries, every (timestamp, spatial row) pair appears
in the combined table exactly the product of its multiplicities (hence exactly
once for distinct rows and timestamps), "t" is prepended to the input keys, and
num_timestamp equals T. -/
theorem cross_product_timestamps
    (data_file : String) (fileData : FieldMapping) (ik lk : List String)
    (ad : List (String × String)) (wd : Option (List (String × ValueSpec)))
    (ts : List ℚ) (r : SCResult)
    (hcsv : data_file.endsWith ".csv" = true)
    (hnt : "t" ∉ keysOf fileData)
    (hok : SupervisedConstraint.init data_file fileData ik lk ad wd (some ts) = .ok r) :
    r.num_timestamp = ts.length ∧
    r.input_keys = "t" :: ik.map (aliasGet ad) ∧
    (∀ p ∈ r.input, p.2.length = ts.length * sampleCount fileData) ∧
    (∀ p ∈ r.label, p.2.length = ts.length * sampleCount fileData) ∧
    (∀ (t : ℚ) (row : List ℚ),
      (combine_array_with_time
        (convert_to_array fileData (ik.map (aliasGet ad) ++ lk.map (aliasGet ad))) ts).count
        (t :: row) =
      ts.count t *
        (convert_to_array fileData (ik.map (aliasGet ad) ++ lk.map (aliasGet ad))).count
          row) := by
  rw [SupervisedConstraint.init_cross hcsv hnt] at hok
  obtain ⟨weight, haw, rfl⟩ := mkSupervised_ok hok
  refine ⟨rfl, rfl, ?_, ?_, fun t row => count_combine_array_with_time _ _ _ _⟩
  · intro p hp
    obtain ⟨k2, hk2, rfl⟩ := List.mem_map.1 hp
    have hk2m : k2 ∈ ("t" :: ik.map (aliasGet ad)) ++ lk.map (aliasGet ad) :=
      List.mem_append_left _ hk2
    simp only [getArr, convert_to_dict, findArr_convertCols 0 hk2m, Option.getD_some]
    simp [length_combine_array_with_time, length_convert_to_array]
  · intro p hp
    obtain ⟨k2, hk2, rfl⟩ := List.mem_map.1 hp
    have hk2m : k2 ∈ ("t" :: ik.map (aliasGet ad)) ++ lk.map (aliasGet ad) :=
      List.mem_append_right _ hk2
    simp only [getArr, convert_to_dict, findArr_convertCols 0 hk2m, Option.getD_some]
    simp [length_combine_array_with_time, length_convert_to_array]

/-- Witness for C5: two spatial rows crossed with two timestamps give four-row
arrays, a prepended "t" key and num_timestamp 2. -/
theorem cross_product_timestamps_witness :
    demoSC1.num_timestamp = ([10, 20] : List ℚ).length ∧
    demoSC1.input_keys = "t" :: (["x"].map (aliasGet [])) ∧
    (∀ p ∈ demoSC1.input,
      p.2.length = ([10, 20] : List ℚ).length *
        sampleCount [("x", [1, 2]), ("u", [5, 6])]) ∧
    (∀ p ∈ demoSC1.label,
      p.2.length = ([10, 20] : List ℚ).length *
        sampleCount [("x", [1, 2]), ("u", [5, 6])]) ∧
    (∀ (t : ℚ) (row : List ℚ),
      (combine_array_with_time
        (convert_to_array [("x", [1, 2]), ("u", [5, 6])]
          (["x"].map (aliasGet []) ++ ["u"].map (aliasGet []))) [10, 20]).count
        (t :: row) =
      ([10, 20] : List ℚ).count t *
        (convert_to_array [("x", [1, 2]), ("u", [5, 6])]
          (["x"].map (aliasGet []) ++ ["u"].map (aliasGet []))).count row) :=
  cross_product_timestamps "d.csv" [("x", [1, 2]), ("u", [5, 6])] ["x"] ["u"] [] none
    [10, 20] demoSC1
    (by with_unfolding_all rfl)
    (of_decide_eq_true (by with_unfolding_all rfl))
    (of_decide_eq_true (by with_unfolding_all rfl))

set_option maxHeartbeats 1000000 in
/-- C6: building a supervised constraint from data with a time column together
with K explicit timestamps keeps, for every input or label key, exactly the
rows whose time value is numpy-close to at least one requested timestamp (the
mask is true at an index precisely when some requested timestamp is close), and
num_timestamp equals K. -/
theorem timestamp_filtering
    (data_file : String) (fileData : FieldMapping) (ik lk : List String)
    (ad : List (String × String)) (wd : Option (List (String × ValueSpec)))
    (ts : List ℚ) (r : SCResult) (k : String)
    (hcsv : data_file.endsWith ".csv" = true)
    (ht : "t" ∈ keysOf fileData)
    (hok : SupervisedConstraint.init data_file fileData ik lk ad wd (some ts) = .ok r)
    (hwf : ∀ p ∈ fileData, p.2.length = sampleCount fileData)
    (hkd : k ∈ keysOf fileData) :
    r.num_timestamp = ts.length ∧
    (k ∈ ik.map (aliasGet ad) →
      findArr r.input k = some (filterByMask (getArr fileData k)
        (buildMask (getArr fileData "t") ts))) ∧
    (k ∈ lk.map (aliasGet ad) →
      findArr r.label k = some (filterByMask (getArr fileData k)
        (buildMask (getArr fileData "t") ts))) ∧
    (∀ i, i < (getArr fileData "t").length →
      ((buildMask (getArr fileData "t") ts).getD i false = true ↔
        ∃ ti ∈ ts, isClose ((getArr fileData "t").getD i 0) ti = true)) := by
  rw [SupervisedConstraint.init_filter hcsv ht] at hok
  obtain ⟨weight, haw, rfl⟩ := mkSupervised_ok hok
  refine ⟨rfl, ?_, ?_, fun i hi => buildMask_true_iff _ _ i hi⟩
  · intro hki
    rw [findArr_keyed_map _ hki]
    congr 1
    exact getArr_convert_filter _ hwf (List.mem_append_left _ hki) hkd
  · intro hkl
    rw [findArr_keyed_map _ hkl]
    congr 1
    exact getArr_convert_filter _ hwf (List.mem_append_right _ hkl) hkd

/-- Witness for C6: timestamps 0 and 2 keep exactly the first and third rows of
a three-row table whose time column is 0,1,2. -/
theorem timestamp_filtering_witness :
    demoSC2.num_timestamp = ([0, 2] : List ℚ).length ∧
    ("x" ∈ ["t", "x"].map (aliasGet []) →
      findArr demoSC2.input "x" = some
        (filterByMask (getArr [("t", [0, 1, 2]), ("x", [7, 8, 9]), ("u", [4, 5, 6])] "x")
          (buildMask (getArr [("t", [0, 1, 2]), ("x", [7, 8, 9]), ("u", [4, 5, 6])] "t")
            [0, 2]))) ∧
    ("x" ∈ ["u"].map (aliasGet []) →
      findArr demoSC2.label "x" = some
        (filterByMask (getArr [("t", [0, 1, 2]), ("x", [7, 8, 9]), ("u", [4, 5, 6])] "x")
          (buildMask (getArr [("t", [0, 1, 2]), ("x", [7, 8, 9]), ("u", [4, 5, 6])] "t")
            [0, 2]))) ∧
    (∀ i, i < (getArr [("t", [0, 1, 2]), ("x", [7, 8, 9]), ("u", [4, 5, 6])] "t").length →
      ((buildMask (getArr [("t", [0, 1, 2]), ("x", [7, 8, 9]), ("u", [4, 5, 6])] "t")
          [0, 2]).getD i false = true ↔
        ∃ ti ∈ ([0, 2] : List ℚ),
          isClose ((getArr [("t", [0, 1, 2]), ("x", [7, 8, 9]), ("u", [4, 5, 6])] "t").getD
            i 0) ti = true)) :=
  timestamp_filtering "d.csv" [("t", [0, 1, 2]), ("x", [7, 8, 9]), ("u", [4, 5, 6])]
    ["t", "x"] ["u"] [] none [0, 2] demoSC2 "x"
    (by with_unfolding_all rfl)
    (of_decide_eq_true (by with_unfolding_all rfl))
    (of_decide_eq_true (by with_unfolding_all rfl))
    (of_decide_eq_true (by with_unfolding_all rfl))
    (of_decide_eq_true (by with_unfolding_all rfl))
